import Mathlib

/-!
Verification of the data generation, dataset, padding and evaluation helpers of
the notebook `3_Recurrent/3.2-RNN-Introduction.ipynb`.

The notebook is Python/NumPy/PyTorch code.  We shallowly embed it as follows:
* NumPy arrays become nested `List`s; `float32` scalars become `ℚ` (every value
  the notebook produces — 0, 1, running sums of bits — is exactly representable
  in `float32`, so `ℚ` is a faithful exact model).
* `np.random.randint(low, high)` draws are modelled by an arbitrary stream
  `g : Nat → Nat` reduced into the half-open range by `low + g i % (high - low)`;
  this captures exactly the guarantee that each draw lies in `[low, high)`.
* In-place tensor mutation is modelled by explicit state passing: a function
  that mutates its arguments returns the updated values.
* Fallible NumPy calls (`np.random.randint` with an empty range raises
  `ValueError`) are modelled with `Except String`.
-/

/-- One row of `np.random.randint(2, size=(num_sequences, num_bits))`:
the `num_bits` raw draws for sequence `i`, each reduced mod 2. -/
def bitRow (g : Nat → Nat → Nat) (i : Nat) (num_bits : Nat) : List Nat :=
  (List.range num_bits).map (fun j => g i j % 2)

/-- `np.cumsum(·, axis=1)` on one row: entry `t` is the sum of entries `0..t`. -/
def cumsum (xs : List Nat) : List Nat :=
  (List.range xs.length).map (fun t => (xs.take (t + 1)).sum)

/-- `get_random_bits_parity(num_sequences, num_bits)` from the notebook:
```
bit_sequences = np.random.randint(2, size=(num_sequences, num_bits))
bitsum = np.cumsum(bit_sequences, axis=1)  # Teacher forcing
parity = bitsum % 2 != 0
return bit_sequences.astype('float32'), parity.astype('float32')
```
The boolean array cast to `float32` yields 1.0 where the running sum is odd and
0.0 where it is even. -/
def get_random_bits_parity (g : Nat → Nat → Nat) (num_sequences num_bits : Nat) :
    List (List ℚ) × List (List ℚ) :=
  let bit_sequences := (List.range num_sequences).map (fun i => bitRow g i num_bits)
  let bitsum := bit_sequences.map cumsum
  let parity := bit_sequences.map
    (fun row => (cumsum row).map (fun s => if s % 2 ≠ 0 then (1 : ℚ) else 0))
  let _ := bitsum
  (bit_sequences.map (fun row => row.map (fun b : ℕ => (b : ℚ))), parity)

/-- `XORDataset`: the constructor stores
`features, labels = get_random_bits_parity(num_sequences, num_bits)` after
`np.expand_dims(·, -1)`, i.e. each scalar entry becomes a singleton innermost
list (`[batch, bits] -> [batch, bits, 1]`). -/
structure XORDatasetS where
  num_sequences : Nat
  num_bits : Nat
  features : List (List (List ℚ))
  labels : List (List (List ℚ))

/-- `XORDataset.__init__(num_sequences, num_bits)`. -/
def XORDataset.init (g : Nat → Nat → Nat) (num_sequences num_bits : Nat) : XORDatasetS :=
  let p := get_random_bits_parity g num_sequences num_bits
  { num_sequences := num_sequences
    num_bits := num_bits
    features := p.1.map (fun row => row.map (fun x => [x]))
    labels := p.2.map (fun row => row.map (fun x => [x])) }

/-- `XORDataset.__getitem__(index)`: returns `(features[index, :], labels[index])`. -/
def XORDatasetS.getitem (d : XORDatasetS) (index : Nat) :
    List (List ℚ) × List (List ℚ) :=
  (d.features.getD index [], d.labels.getD index [])

/-- `XORDataset.__len__()`: `len(self.features)`. -/
def XORDatasetS.len (d : XORDatasetS) : Nat :=
  d.features.length

/-- Cumulative XOR from the spec: entry `t` is the XOR of bits `0..t`. -/
def cumXor (bs : List Nat) : List Nat :=
  (List.range bs.length).map (fun t => (bs.take (t + 1)).foldl Nat.xor 0)

/- ### Helper lemmas -/

theorem bitRow_length (g : Nat → Nat → Nat) (i num_bits : Nat) :
    (bitRow g i num_bits).length = num_bits := by
  simp [bitRow]

theorem bitRow_lt_two (g : Nat → Nat → Nat) (i num_bits : Nat) :
    ∀ b ∈ bitRow g i num_bits, b < 2 := by
  intro b hb
  simp only [bitRow, List.mem_map] at hb
  obtain ⟨j, _, rfl⟩ := hb
  exact Nat.mod_lt _ (by omega)

theorem xor_lt_two {a b : Nat} (ha : a < 2) (hb : b < 2) : Nat.xor a b < 2 := by
  interval_cases a <;> interval_cases b <;> decide

/-- For bits (values `< 2`), folding XOR over a list computes the sum mod 2. -/
theorem foldl_xor_eq_sum_mod (bs : List Nat) (hbs : ∀ b ∈ bs, b < 2) :
    ∀ acc, acc < 2 → bs.foldl Nat.xor acc = (acc + bs.sum) % 2 := by
  induction bs with
  | nil => intro acc hacc; simp; omega
  | cons b rest ih =>
    intro acc hacc
    have hb : b < 2 := hbs b (List.mem_cons_self _ _)
    have hrest : ∀ x ∈ rest, x < 2 := fun x hx => hbs x (List.mem_cons_of_mem _ hx)
    simp only [List.foldl_cons, List.sum_cons]
    rw [ih hrest _ (xor_lt_two hacc hb)]
    have : Nat.xor acc b = (acc + b) % 2 := by
      interval_cases acc <;> interval_cases b <;> decide
    rw [this]
    omega

theorem getD_map_range {α : Type} (d : α) (f : Nat → α) {i n : Nat} (h : i < n) :
    ((List.range n).map f).getD i d = f i := by
  rw [List.getD_eq_getElem _ _ (by simpa using h), List.getElem_map, List.getElem_range]

theorem cumsum_length (xs : List Nat) : (cumsum xs).length = xs.length := by
  simp [cumsum]

theorem grbp_fst (g : Nat → Nat → Nat) (ns nb : Nat) :
    (get_random_bits_parity g ns nb).1
      = (List.range ns).map (fun i => (bitRow g i nb).map (fun b : ℕ => (b : ℚ))) := by
  simp [get_random_bits_parity, List.map_map, Function.comp]

theorem grbp_snd (g : Nat → Nat → Nat) (ns nb : Nat) :
    (get_random_bits_parity g ns nb).2
      = (List.range ns).map (fun i =>
          (cumsum (bitRow g i nb)).map (fun s => if s % 2 ≠ 0 then (1 : ℚ) else 0)) := by
  simp [get_random_bits_parity, List.map_map, Function.comp]

/-- C1: for every sequence index `i` and position `t`, the parity label returned
by `get_random_bits_parity` equals the cumulative XOR of the bits of sequence
`i` at positions `0..t` (the running sum mod 2 and the running XOR agree on
bits). -/
theorem parity_eq_cumulative_xor (g : Nat → Nat → Nat) (ns nb i t : Nat)
    (hi : i < ns) (ht : t < nb) :
    ((get_random_bits_parity g ns nb).2.getD i []).getD t 0
      = ((((bitRow g i nb).take (t + 1)).foldl Nat.xor 0 : Nat) : ℚ) := by
  have hb : ∀ b ∈ (bitRow g i nb).take (t + 1), b < 2 := fun b hbmem =>
    bitRow_lt_two g i nb b (List.mem_of_mem_take hbmem)
  have hfold := foldl_xor_eq_sum_mod _ hb 0 (by omega)
  rw [grbp_snd, getD_map_range _ _ hi]
  have hrow : (cumsum (bitRow g i nb)).map (fun s => if s % 2 ≠ 0 then (1 : ℚ) else 0)
      = (List.range nb).map
          (fun t => if ((bitRow g i nb).take (t + 1)).sum % 2 ≠ 0 then (1 : ℚ) else 0) := by
    simp [cumsum, List.map_map, bitRow_length, Function.comp]
  rw [hrow, getD_map_range _ _ ht, hfold]
  rcases Nat.mod_two_eq_zero_or_one ((bitRow g i nb).take (t + 1)).sum with h | h <;>
    simp [h]

/-- Witness for C1 at a concrete generator, `num_sequences = 2`,
`num_bits = 3`, sequence `1`, position `2`. -/
theorem parity_eq_cumulative_xor_w :
    ((get_random_bits_parity (fun i j => i + j) 2 3).2.getD 1 []).getD 2 0
      = ((((bitRow (fun i j => i + j) 1 3).take 3).foldl Nat.xor 0 : Nat) : ℚ) :=
  parity_eq_cumulative_xor (fun i j => i + j) 2 3 1 2 (by decide) (by decide)

/-- C3: every element of the `bit_sequences` array returned by
`get_random_bits_parity` equals 0 or 1. -/
theorem bits_are_binary (g : Nat → Nat → Nat) (ns nb : Nat) :
    ∀ row ∈ (get_random_bits_parity g ns nb).1, ∀ v ∈ row, v = 0 ∨ v = 1 := by
  intro row hrow v hv
  rw [grbp_fst, List.mem_map] at hrow
  obtain ⟨i, hi, rfl⟩ := hrow
  rw [List.mem_map] at hv
  obtain ⟨b, hbmem, rfl⟩ := hv
  have hb := bitRow_lt_two g i nb b hbmem
  interval_cases b
  · left; norm_num
  · right; norm_num

/-- Witness for C3 on a concrete generated array. -/
theorem bits_are_binary_w : (1 : ℚ) = 0 ∨ (1 : ℚ) = 1 :=
  bits_are_binary (fun _ _ => 1) 1 1 [(1 : ℚ)] (by decide) 1 (by decide)

theorem init_features (g : Nat → Nat → Nat) (ns nb : Nat) :
    (XORDataset.init g ns nb).features
      = (List.range ns).map
          (fun i => (bitRow g i nb).map (fun b : ℕ => ([(b : ℚ)] : List ℚ))) := by
  simp [XORDataset.init, grbp_fst, List.map_map, Function.comp]

theorem init_labels (g : Nat → Nat → Nat) (ns nb : Nat) :
    (XORDataset.init g ns nb).labels
      = (List.range ns).map
          (fun i => (cumsum (bitRow g i nb)).map
            (fun s => ([if s % 2 ≠ 0 then (1 : ℚ) else 0] : List ℚ))) := by
  simp [XORDataset.init, grbp_snd, List.map_map, Function.comp]

/-- C2: `get_random_bits_parity` returns two arrays of shape
`[num_sequences, num_bits]`; after `XORDataset` construction, features and
labels both have shape `[num_sequences, num_bits, 1]`; and `__getitem__` pairs
a sequence with a label sequence of equal length (for every index). -/
theorem dataset_shapes (g : Nat → Nat → Nat) (ns nb : Nat) :
    ((get_random_bits_parity g ns nb).1.length = ns
      ∧ (get_random_bits_parity g ns nb).2.length = ns
      ∧ (∀ row ∈ (get_random_bits_parity g ns nb).1, row.length = nb)
      ∧ (∀ row ∈ (get_random_bits_parity g ns nb).2, row.length = nb))
    ∧ ((XORDataset.init g ns nb).features.length = ns
      ∧ (XORDataset.init g ns nb).labels.length = ns
      ∧ (∀ row ∈ (XORDataset.init g ns nb).features,
          row.length = nb ∧ ∀ c ∈ row, c.length = 1)
      ∧ (∀ row ∈ (XORDataset.init g ns nb).labels,
          row.length = nb ∧ ∀ c ∈ row, c.length = 1))
    ∧ (∀ index, ((XORDataset.init g ns nb).getitem index).1.length
          = ((XORDataset.init g ns nb).getitem index).2.length) := by
  refine ⟨⟨?_, ?_, ?_, ?_⟩, ⟨?_, ?_, ?_, ?_⟩, ?_⟩
  · simp [grbp_fst]
  · simp [grbp_snd]
  · intro row hrow
    rw [grbp_fst, List.mem_map] at hrow
    obtain ⟨i, _, rfl⟩ := hrow
    simp [bitRow_length]
  · intro row hrow
    rw [grbp_snd, List.mem_map] at hrow
    obtain ⟨i, _, rfl⟩ := hrow
    simp [cumsum_length, bitRow_length]
  · simp [init_features]
  · simp [init_labels]
  · intro row hrow
    rw [init_features, List.mem_map] at hrow
    obtain ⟨i, _, rfl⟩ := hrow
    refine ⟨by simp [bitRow_length], ?_⟩
    intro c hc
    rw [List.mem_map] at hc
    obtain ⟨b, _, rfl⟩ := hc
    rfl
  · intro row hrow
    rw [init_labels, List.mem_map] at hrow
    obtain ⟨i, _, rfl⟩ := hrow
    refine ⟨by simp [cumsum_length, bitRow_length], ?_⟩
    intro c hc
    rw [List.mem_map] at hc
    obtain ⟨s, _, rfl⟩ := hc
    rfl
  · intro index
    by_cases h : index < ns
    · simp only [XORDatasetS.getitem, init_features, init_labels]
      rw [getD_map_range _ _ h, getD_map_range _ _ h]
      simp [bitRow_length, cumsum_length]
    · have h1 : ((XORDataset.init g ns nb).features).getD index [] = [] := by
        apply List.getD_eq_default
        simp only [init_features, List.length_map, List.length_range]
        omega
      have h2 : ((XORDataset.init g ns nb).labels).getD index [] = [] := by
        apply List.getD_eq_default
        simp only [init_labels, List.length_map, List.length_range]
        omega
      simp only [XORDatasetS.getitem]
      rw [h1, h2]

/-- Witness for C2 at a concrete generator, `num_sequences = 1`,
`num_bits = 2`, with each bounded quantifier instantiated concretely. -/
theorem dataset_shapes_w :
    (get_random_bits_parity (fun _ _ => 1) 1 2).1.length = 1
    ∧ ([(1 : ℚ), 1] : List ℚ).length = 2
    ∧ ([[(1 : ℚ)], [1]] : List (List ℚ)).length = 2
    ∧ ([(1 : ℚ)] : List ℚ).length = 1
    ∧ ((XORDataset.init (fun _ _ => 1) 1 2).getitem 0).1.length
        = ((XORDataset.init (fun _ _ => 1) 1 2).getitem 0).2.length := by
  have h := dataset_shapes (fun _ _ => 1) 1 2
  exact ⟨h.1.1,
    h.1.2.2.1 [(1 : ℚ), 1] (by decide),
    (h.2.1.2.2.1 [[(1 : ℚ)], [1]] (by decide)).1,
    (h.2.1.2.2.1 [[(1 : ℚ)], [1]] (by decide)).2 [(1 : ℚ)] (by decide),
    h.2.2 0⟩

/-- One row of the slice assignment `inputs[i, lengths[i]:, ] = 0`: keep the
first `len` positions, overwrite every later position (a `[1]`-shaped cell)
with zeros. -/
def chopRow : Nat → List (List ℚ) → List (List ℚ)
  | _, [] => []
  | 0, c :: rest => c.map (fun _ => (0 : ℚ)) :: chopRow 0 rest
  | n + 1, c :: rest => c :: chopRow n rest

/-- The loop `for i, sample_length in enumerate(lengths): inputs[i, lengths[i]:, ] = 0`:
row `i` is chopped at `lengths[i]`; rows beyond `len(lengths)` are untouched
(at every call site `len(lengths)` equals the number of rows). -/
def chop (lengths : List Nat) (mat : List (List (List ℚ))) : List (List (List ℚ)) :=
  List.zipWith chopRow lengths mat ++ mat.drop lengths.length

/-- `adjust_lengths(vary_lengths, inputs, targets)` from the notebook:
```
batch_size = inputs.size()[0]
max_bits = inputs.size()[1]
if not vary_lengths:
    lengths = torch.ones(batch_size, dtype=torch.int) * max_bits
    return lengths
lengths = np.random.randint(1, max_bits, size=batch_size, dtype=int)
lengths[0] = max_bits
lengths = -np.sort(-lengths)
for i, sample_length in enumerate(lengths):
    inputs[i, lengths[i]:, ] = 0
    targets[i, lengths[i]:, ] = 0
return lengths
```
The in-place mutation of `inputs`/`targets` is modelled by returning the
updated arrays alongside `lengths`.  `np.random.randint(1, max_bits)` raises
`ValueError` when the range `[1, max_bits)` is empty, i.e. when
`max_bits <= 1`; otherwise each draw is `1 + g i % (max_bits - 1)`, which
ranges over `[1, max_bits)`.  `-np.sort(-lengths)` sorts in non-increasing
order. -/
def adjust_lengths (vary_lengths : Bool) (g : Nat → Nat)
    (inputs targets : List (List (List ℚ))) :
    Except String (List Nat × List (List (List ℚ)) × List (List (List ℚ))) :=
  let batch_size := inputs.length
  let max_bits := (inputs.headD []).length
  if vary_lengths = false then
    .ok (List.replicate batch_size max_bits, inputs, targets)
  else if max_bits ≤ 1 then
    .error "ValueError: low >= high"
  else
    let drawn := (List.range batch_size).map (fun i => 1 + g i % (max_bits - 1))
    let withMax := drawn.set 0 max_bits
    let lengths := withMax.insertionSort (· ≥ ·)
    .ok (lengths, chop lengths inputs, chop lengths targets)

/-- Positions at or past the cutoff length of each row hold only zeros. -/
def zeroedBeyond (lengths : List Nat) (mat : List (List (List ℚ))) : Prop :=
  ∀ i, i < lengths.length → i < mat.length →
    ∀ k, lengths.getD i 0 ≤ k → ∀ v ∈ (mat.getD i []).getD k [], v = 0

/-- C9: with `vary_lengths` false, `adjust_lengths` returns a lengths vector
with one entry per batch element, every entry equal to the sequence-length
dimension, and leaves `inputs` and `targets` unchanged. -/
theorem adjust_lengths_novary (g : Nat → Nat) (inputs targets : List (List (List ℚ))) :
    adjust_lengths false g inputs targets
      = .ok (List.replicate inputs.length (inputs.headD []).length, inputs, targets)
    ∧ (List.replicate inputs.length (inputs.headD []).length).length = inputs.length
    ∧ ∀ x ∈ List.replicate inputs.length (inputs.headD []).length,
        x = (inputs.headD []).length :=
  ⟨rfl, List.length_replicate _ _, fun _ hx => List.eq_of_mem_replicate hx⟩

/-- Witness for C9 on a concrete one-element batch of two-bit rows. -/
theorem adjust_lengths_novary_w :
    adjust_lengths false (fun _ => 0) [[[(1 : ℚ)], [0]]] [[[(0 : ℚ)], [1]]]
      = .ok ([2], [[[(1 : ℚ)], [0]]], [[[(0 : ℚ)], [1]]])
    ∧ ([2] : List Nat).length = 1
    ∧ (2 : Nat) = 2 := by
  have h := adjust_lengths_novary (fun _ => 0) [[[(1 : ℚ)], [0]]] [[[(0 : ℚ)], [1]]]
  exact ⟨h.1, h.2.1, h.2.2 2 (by decide)⟩

/-- C10: with `vary_lengths` true, `adjust_lengths` fails (the random draw over
the empty range `[1, max_bits)` raises `ValueError`) when the sequence-length
dimension is 1, and always succeeds when it is at least 2. -/
theorem adjust_lengths_vary_safety (g : Nat → Nat)
    (inputs targets : List (List (List ℚ))) :
    ((inputs.headD []).length = 1 →
      adjust_lengths true g inputs targets = .error "ValueError: low >= high")
    ∧ (2 ≤ (inputs.headD []).length →
        ∃ r, adjust_lengths true g inputs targets = .ok r) := by
  constructor
  · intro h
    simp only [adjust_lengths]
    rw [if_neg (by simp), if_pos (by omega)]
  · intro h
    simp only [adjust_lengths]
    rw [if_neg (by simp), if_neg (by omega)]
    exact ⟨_, rfl⟩

/-- Witness for C10: a batch of one-bit rows makes the call fail, a batch of
two-bit rows makes it succeed. -/
theorem adjust_lengths_vary_safety_w :
    adjust_lengths true (fun _ => 0) [[[(1 : ℚ)]]] [[[(1 : ℚ)]]]
      = .error "ValueError: low >= high"
    ∧ ∃ r, adjust_lengths true (fun _ => 0) [[[(1 : ℚ)], [0]]] [[[(1 : ℚ)], [0]]]
        = .ok r :=
  ⟨(adjust_lengths_vary_safety (fun _ => 0) [[[(1 : ℚ)]]] [[[(1 : ℚ)]]]).1 (by decide),
   (adjust_lengths_vary_safety (fun _ => 0) [[[(1 : ℚ)], [0]]] [[[(1 : ℚ)], [0]]]).2
     (by decide)⟩

theorem mem_set_zero {α : Type} (l : List α) (a : α) (h : 0 < l.length) :
    a ∈ l.set 0 a := by
  cases l with
  | nil => simp at h
  | cons x xs =>
    simp only [List.set_cons_zero]
    exact List.mem_cons_self _ _

theorem chop_length (lengths : List Nat) (mat : List (List (List ℚ))) :
    (chop lengths mat).length = mat.length := by
  simp only [chop, List.length_append, List.length_zipWith, List.length_drop]
  omega

theorem chopRow_zero_beyond :
    ∀ (row : List (List ℚ)) (len k : Nat), len ≤ k →
      ∀ v ∈ (chopRow len row).getD k [], v = 0 := by
  intro row
  induction row with
  | nil =>
    intro len k _ v hv
    cases len <;> simp [chopRow] at hv
  | cons c rest ih =>
    intro len k hlen v hv
    cases len with
    | zero =>
      cases k with
      | zero =>
        simp only [chopRow, List.getD_cons_zero] at hv
        obtain ⟨b, _, rfl⟩ := List.mem_map.mp hv
        rfl
      | succ k =>
        simp only [chopRow, List.getD_cons_succ] at hv
        exact ih 0 k (Nat.zero_le _) v hv
    | succ n =>
      cases k with
      | zero => omega
      | succ k =>
        simp only [chopRow, List.getD_cons_succ] at hv
        exact ih n k (by omega) v hv

theorem chop_getD (lengths : List Nat) (mat : List (List (List ℚ))) (i : Nat)
    (hil : i < lengths.length) (him : i < mat.length) :
    (chop lengths mat).getD i [] = chopRow (lengths.getD i 0) (mat.getD i []) := by
  have hz : i < (List.zipWith chopRow lengths mat).length := by
    rw [List.length_zipWith]; omega
  have hlen : i < (chop lengths mat).length := by rw [chop_length]; omega
  rw [List.getD_eq_getElem _ _ hlen, List.getD_eq_getElem _ _ hil,
    List.getD_eq_getElem _ _ him]
  simp only [chop]
  rw [List.getElem_append_left hz, List.getElem_zipWith]

theorem chop_zeroedBeyond (lengths : List Nat) (mat : List (List (List ℚ))) :
    zeroedBeyond lengths (chop lengths mat) := by
  intro i hil him k hk v hv
  rw [chop_length] at him
  rw [chop_getD lengths mat i hil him] at hv
  exact chopRow_zero_beyond _ _ _ hk v hv

/-- C8: with `vary_lengths` true and sequence-length dimension at least 2, the
lengths vector returned by `adjust_lengths` is sorted in non-increasing order,
its first entry equals `max_bits`, every entry lies in `[1, max_bits]`, and
after the call every position of `inputs` and `targets` at or past the cutoff
length of its row holds zeros. -/
theorem adjust_lengths_vary_spec (g : Nat → Nat)
    (inputs targets : List (List (List ℚ)))
    (l : List Nat) (inputs2 targets2 : List (List (List ℚ)))
    (hok : adjust_lengths true g inputs targets = .ok (l, inputs2, targets2)) :
    List.Sorted (· ≥ ·) l
    ∧ l.headD 0 = (inputs.headD []).length
    ∧ (∀ x ∈ l, 1 ≤ x ∧ x ≤ (inputs.headD []).length)
    ∧ zeroedBeyond l inputs2
    ∧ zeroedBeyond l targets2 := by
  by_cases hc : (inputs.headD []).length ≤ 1
  · exfalso
    simp only [adjust_lengths] at hok
    rw [if_neg (by simp), if_pos hc] at hok
    exact Except.noConfusion hok
  · push_neg at hc
    simp only [adjust_lengths] at hok
    rw [if_neg (by simp), if_neg (by omega)] at hok
    rw [Except.ok.injEq, Prod.mk.injEq, Prod.mk.injEq] at hok
    obtain ⟨hl, hi2, ht2⟩ := hok
    subst hl
    subst hi2
    subst ht2
    haveI instTot : IsTotal ℕ (· ≥ ·) := ⟨fun a b => (le_total b a).imp id id⟩
    haveI instTrans : IsTrans ℕ (· ≥ ·) := ⟨fun a b c hab hbc => le_trans hbc hab⟩
    set mb := (inputs.headD []).length with hmbdef
    set drawn := (List.range inputs.length).map (fun i => 1 + g i % (mb - 1))
      with hdrawn
    set withMax := drawn.set 0 mb with hwm
    set L := withMax.insertionSort (· ≥ ·) with hL
    have hbatch : 0 < inputs.length := by
      rcases inputs with _ | ⟨r, rest⟩
      · simp [hmbdef] at hc
      · simp
    have hsorted : List.Sorted (· ≥ ·) L := List.sorted_insertionSort _ _
    have hbounds : ∀ x ∈ L, 1 ≤ x ∧ x ≤ mb := by
      intro x hx
      rw [hL, List.mem_insertionSort] at hx
      rcases List.mem_or_eq_of_mem_set hx with hx | rfl
      · rw [hdrawn, List.mem_map] at hx
        obtain ⟨j, _, rfl⟩ := hx
        have hmod : g j % (mb - 1) < mb - 1 := Nat.mod_lt _ (by omega)
        omega
      · omega
    have hwmlen : 0 < withMax.length := by
      rw [hwm, List.length_set, hdrawn, List.length_map, List.length_range]
      exact hbatch
    have hdlen : 0 < drawn.length := by
      rw [hdrawn, List.length_map, List.length_range]
      exact hbatch
    have hmbmem : mb ∈ withMax := by
      rw [hwm]
      exact mem_set_zero drawn mb hdlen
    have hmbL : mb ∈ L := by
      rw [hL, List.mem_insertionSort]
      exact hmbmem
    have hhead : L.headD 0 = mb := by
      rcases hcons : L with _ | ⟨a, r⟩
      · rw [hcons] at hmbL
        exact absurd hmbL (List.not_mem_nil _)
      · rw [hcons] at hsorted hmbL
        have hrel := (List.sorted_cons.mp hsorted).1
        have hale : a ≤ mb := (hbounds a (by rw [hcons]; exact List.mem_cons_self _ _)).2
        rcases List.mem_cons.mp hmbL with h | h
        · simp [h]
        · have : a ≥ mb := hrel mb h
          simp only [List.headD_cons]
          omega
    exact ⟨hsorted, hhead, hbounds, chop_zeroedBeyond L inputs, chop_zeroedBeyond L targets⟩

/-- Witness for C8 on a concrete two-element batch of two-bit rows: the call
returns lengths `[2, 1]` and zero-fills the second row past position 1. -/
theorem adjust_lengths_vary_spec_w :
    List.Sorted (· ≥ ·) ([2, 1] : List ℕ)
    ∧ ([2, 1] : List ℕ).headD 0 = ([[[(1 : ℚ)], [0]], [[0], [1]]].headD []).length
    ∧ (∀ x ∈ ([2, 1] : List ℕ),
        1 ≤ x ∧ x ≤ ([[[(1 : ℚ)], [0]], [[0], [1]]].headD []).length)
    ∧ zeroedBeyond [2, 1] [[[(1 : ℚ)], [0]], [[0], [0]]]
    ∧ zeroedBeyond [2, 1] [[[(1 : ℚ)], [1]], [[0], [0]]] :=
  adjust_lengths_vary_spec (fun _ => 0)
    [[[(1 : ℚ)], [0]], [[0], [1]]] [[[(1 : ℚ)], [1]], [[0], [0]]]
    [2, 1] [[[(1 : ℚ)], [0]], [[0], [0]]] [[[(1 : ℚ)], [1]], [[0], [0]]]
    rfl

/-- `int(max_bits * 1.5)` from `evaluate`: for a nonnegative machine integer,
`max_bits * 1.5` is an exact binary float and `int(...)` truncates toward
zero, so the value is `3 * max_bits / 2` rounded down. -/
def evalNumBits (max_bits : Nat) : Nat :=
  (3 * max_bits) / 2

/-- The validation dataset built by `evaluate`:
`XORDataset(num_sequences=5000, num_bits=int(max_bits * 1.5))`. -/
def evaluateValidDataset (g : Nat → Nat → Nat) (max_bits : Nat) : XORDatasetS :=
  XORDataset.init g 5000 (evalNumBits max_bits)

/-- C5: for `max_bits >= 2`, `evaluate` constructs its validation dataset with
`num_bits = int(max_bits * 1.5)`, which is strictly greater than the training
sequence length `max_bits`. -/
theorem evaluate_longer_sequences (g : Nat → Nat → Nat) (max_bits : Nat)
    (h : 2 ≤ max_bits) :
    (evaluateValidDataset g max_bits).num_bits = evalNumBits max_bits
    ∧ max_bits < evalNumBits max_bits := by
  refine ⟨rfl, ?_⟩
  simp only [evalNumBits]
  omega

/-- Witness for C5 at `max_bits = 2`. -/
theorem evaluate_longer_sequences_w :
    (evaluateValidDataset (fun _ _ => 0) 2).num_bits = evalNumBits 2
    ∧ 2 < evalNumBits 2 :=
  evaluate_longer_sequences (fun _ _ => 0) 2 (by decide)

/-- Dot product of two equal-length rational vectors. -/
def dotQ (a b : List ℚ) : ℚ :=
  (List.zipWith (· * ·) a b).sum

/-- The parameters of the notebook's `RNN` module: a one-layer
`torch.nn.RNN(input_size=1, hidden_size, num_layers=1)` followed by
`hidden_to_logits = Linear(hidden_size, 1)` and `activation = Sigmoid()`.
The library's transcendental activations (the recurrent tanh and the output
sigmoid) are carried as function-valued fields, since they have no exact
rational form; every claim below holds for all of them. -/
structure RNNModel where
  hidden_size : Nat
  weight_ih : List (List ℚ)
  bias_ih : List ℚ
  weight_hh : List (List ℚ)
  bias_hh : List ℚ
  weight_out : List ℚ
  bias_out : ℚ
  tanhF : ℚ → ℚ
  sigmoidF : ℚ → ℚ

/-- One step of `torch.nn.RNN` with the default tanh nonlinearity:
`h' = tanh(W_ih x + b_ih + W_hh h + b_hh)`, componentwise over the hidden
units. -/
def rnnCell (m : RNNModel) (x : List ℚ) (h : List ℚ) : List ℚ :=
  (List.range m.hidden_size).map (fun j =>
    m.tanhF (dotQ (m.weight_ih.getD j []) x + m.bias_ih.getD j 0
      + dotQ (m.weight_hh.getD j []) h + m.bias_hh.getD j 0))

/-- The hidden-state outputs of one sequence, step by step. -/
def rnnSeq (m : RNNModel) : List (List ℚ) → List ℚ → List (List ℚ)
  | [], _ => []
  | x :: xs, h =>
    let h2 := rnnCell m x h
    h2 :: rnnSeq m xs h2

/-- `pad_packed_sequence(..., batch_first=True)` pads each sequence's output
with zero hidden-state rows up to the common batch length `T`. -/
def padTo (T : Nat) (hsize : Nat) (hs : List (List ℚ)) : List (List ℚ) :=
  hs ++ List.replicate (T - hs.length) (List.replicate hsize 0)

/-- Net effect of `pack_padded_sequence` + `self.rnn` + `pad_packed_sequence`
with `batch_first=True` (and `lengths` sorted in non-increasing order, as
`pack_padded_sequence` requires): sequence `i` is run through the recurrent
cell for `lengths[i]` steps from the zero initial hidden state, then its
output is padded with zero rows to the maximal length `lengths[0]`. -/
def unpackedHidden (m : RNNModel) (inputs : List (List (List ℚ)))
    (lengths : List Nat) : List (List (List ℚ)) :=
  (inputs.zip lengths).map (fun p =>
    padTo (lengths.headD 0) m.hidden_size
      (rnnSeq m (p.1.take p.2) (List.replicate m.hidden_size 0)))

/-- `RNN.forward(inputs, lengths)`:
```
packed_inputs = rnn_utils.pack_padded_sequence(inputs, lengths, batch_first=True)
rnn_out, _ = self.rnn(packed_inputs)
unpacked, _ = rnn_utils.pad_packed_sequence(rnn_out, batch_first=True)
logits = self.hidden_to_logits(unpacked)
predictions = self.activation(logits)
return logits, predictions
```
-/
def RNN.forward (m : RNNModel) (inputs : List (List (List ℚ)))
    (lengths : List Nat) : List (List ℚ) × List (List ℚ) :=
  let unpacked := unpackedHidden m inputs lengths
  let logits := unpacked.map (fun row =>
    row.map (fun h => dotQ m.weight_out h + m.bias_out))
  let predictions := logits.map (fun row => row.map m.sigmoidF)
  (logits, predictions)

/-- C6: `RNN.forward` returns a pair `(logits, predictions)` in which
`predictions` is the element-wise sigmoid of `logits`, and `logits` is the
linear projection (`hidden_to_logits`) of the recurrent hidden states. -/
theorem forward_sigmoid_of_logits (m : RNNModel) (inputs : List (List (List ℚ)))
    (lengths : List Nat) :
    (RNN.forward m inputs lengths).2
        = (RNN.forward m inputs lengths).1.map (fun row => row.map m.sigmoidF)
    ∧ (RNN.forward m inputs lengths).1
        = (unpackedHidden m inputs lengths).map
            (fun row => row.map (fun h => dotQ m.weight_out h + m.bias_out)) :=
  ⟨rfl, rfl⟩

/-- One iteration's in-memory state: the dataset object plus the batch tensors
the loader produced from it.  `DataLoader` with the default collate function
stacks fresh tensors copied from the rows `__getitem__` returns, so the batch
does not alias the stored arrays; that copy is explicit here. -/
structure LoaderState where
  dataset : XORDatasetS
  inputs : List (List (List ℚ))
  targets : List (List (List ℚ))

/-- Drawing one batch: stack copies of `dataset[i]` over the sampled indices. -/
def collateBatch (d : XORDatasetS) (idxs : List Nat) : LoaderState :=
  { dataset := d
    inputs := idxs.map (fun i => (d.getitem i).1)
    targets := idxs.map (fun i => (d.getitem i).2) }

/-- The `lengths = adjust_lengths(vary_lengths, inputs, targets)` statement of
the training and evaluation loops, as a transformer on the loader state: it
rewrites only the batch tensors. -/
def loopAdjust (vary_lengths : Bool) (g : Nat → Nat) (s : LoaderState) :
    Except String (List Nat × LoaderState) :=
  match adjust_lengths vary_lengths g s.inputs s.targets with
  | .error e => .error e
  | .ok (lengths, inputs2, targets2) =>
      .ok (lengths, { s with inputs := inputs2, targets := targets2 })

/-- C4: the dataset's stored arrays are never modified: `__getitem__` and
`__len__` are pure reads, and running the loop's `adjust_lengths` step on a
collated batch (for either value of `vary_lengths`, so in particular when it
zero-fills positions of the batch tensors) leaves the dataset object — its
features and labels — unchanged, as observed through `__getitem__` and
`__len__`. -/
theorem dataset_never_mutated (d : XORDatasetS) (idxs : List Nat)
    (vary_lengths : Bool) (g : Nat → Nat) (lengths : List Nat) (s2 : LoaderState)
    (hok : loopAdjust vary_lengths g (collateBatch d idxs) = .ok (lengths, s2)) :
    s2.dataset = d
    ∧ (∀ index, s2.dataset.getitem index = d.getitem index)
    ∧ s2.dataset.len = d.len := by
  have hd : s2.dataset = d := by
    unfold loopAdjust at hok
    cases hmatch : adjust_lengths vary_lengths g (collateBatch d idxs).inputs
        (collateBatch d idxs).targets with
    | error e =>
      rw [hmatch] at hok
      exact Except.noConfusion hok
    | ok r =>
      obtain ⟨l2, i2, t2⟩ := r
      rw [hmatch] at hok
      simp only [Except.ok.injEq, Prod.mk.injEq] at hok
      obtain ⟨_, hs⟩ := hok
      rw [← hs]
      rfl
  exact ⟨hd, fun index => by rw [hd], by rw [hd]⟩

/-- Witness for C4 on a concrete one-element dataset with `vary_lengths`
false. -/
theorem dataset_never_mutated_w :
    (collateBatch (XORDataset.init (fun _ _ => 1) 1 2) [0]).dataset
        = XORDataset.init (fun _ _ => 1) 1 2
    ∧ (collateBatch (XORDataset.init (fun _ _ => 1) 1 2) [0]).dataset.getitem 0
        = (XORDataset.init (fun _ _ => 1) 1 2).getitem 0
    ∧ (collateBatch (XORDataset.init (fun _ _ => 1) 1 2) [0]).dataset.len
        = (XORDataset.init (fun _ _ => 1) 1 2).len := by
  have h := dataset_never_mutated (XORDataset.init (fun _ _ => 1) 1 2) [0] false
    (fun _ => 0) (List.replicate 1 2)
    (collateBatch (XORDataset.init (fun _ _ => 1) 1 2) [0]) rfl
  exact ⟨h.1, h.2.1 0, h.2.2⟩
